import Mathlib

/-!
Shallow embedding of the QAOA Max-Cut notebook (the repository's core):
the operator-builder helpers (`single_site_operator`, `two_site_operator`,
`construct_C_graph`, `construct_B`), the state-evolution engine
(`uniform_state`, `construct_wavefunction`), the objective evaluator
(`target_expval`) and the partial-trace helper (`partial_trace`).

Matrices are dense complex matrices indexed by `Fin (2 ^ n)`; `np.kron` is
embedded by its entry formula (`npKron`), machine floats by exact real and
complex numbers, and `scipy.linalg.expm` by the analytic matrix exponential
`NormedSpace.exp ℂ`.
-/

open Matrix

noncomputable section

/-- `np.kron(A, B)` for square matrices: the Kronecker product in NumPy's
row-major layout, `K[p, q] = A[p / b, q / b] * B[p % b, q % b]` where `b` is
the dimension of `B`. -/
def npKron {a b : ℕ} (A : Matrix (Fin a) (Fin a) ℂ) (B : Matrix (Fin b) (Fin b) ℂ) :
    Matrix (Fin (a * b)) (Fin (a * b)) ℂ :=
  Matrix.of fun p q => A p.divNat q.divNat * B p.modNat q.modNat

/-- Transport a square matrix along an equality of dimensions. -/
def castM {m m' : ℕ} (h : m = m') (A : Matrix (Fin m) (Fin m) ℂ) :
    Matrix (Fin m') (Fin m') ℂ :=
  Matrix.of fun i j => A (Fin.cast h.symm i) (Fin.cast h.symm j)

/-- Transport to the dimension `N` when the dimensions agree; the zero matrix
otherwise.  Every use below is at matching dimensions: the mismatching branch
only keeps the Kronecker-composed operator builders total in their index
arguments (the Python source raises a `TypeError` there, since a negative
power `2 ** e` is fractional and `np.identity` refuses it; that raising
behaviour is modelled separately by the `..._checked` variants). -/
def castTo (N : ℕ) {m : ℕ} (A : Matrix (Fin m) (Fin m) ℂ) :
    Matrix (Fin N) (Fin N) ℂ :=
  if h : m = N then castM h A else 0

/-- Pauli X, from the notebook's `Xmat = np.array([[0, 1], [1, 0]])`. -/
def Xmat : Matrix (Fin 2) (Fin 2) ℂ := !![0, 1; 1, 0]

/-- Pauli Y, from the notebook's `Ymat`. -/
def Ymat : Matrix (Fin 2) (Fin 2) ℂ := !![0, -Complex.I; Complex.I, 0]

/-- Pauli Z, from the notebook's `Zmat = np.array([[1, 0], [0, -1]])`. -/
def Zmat : Matrix (Fin 2) (Fin 2) ℂ := !![1, 0; 0, -1]

/-- `single_site_operator(op, j, n)` from the source:
`np.kron(np.identity(2**(n-j-1)), np.kron(op, np.identity(2**j)))`. -/
def single_site_operator (op : Matrix (Fin 2) (Fin 2) ℂ) (j n : ℕ) :
    Matrix (Fin (2 ^ n)) (Fin (2 ^ n)) ℂ :=
  castTo (2 ^ n)
    (npKron (1 : Matrix (Fin (2 ^ (n - j - 1))) (Fin (2 ^ (n - j - 1))) ℂ)
      (npKron op (1 : Matrix (Fin (2 ^ j)) (Fin (2 ^ j)) ℂ)))

/-- `two_site_operator(op1, op2, i, j, n)` from the source: when `i > j` it
calls itself with the two sites flipped, otherwise it returns
`np.kron(np.identity(2**(n-j-1)), np.kron(op2, np.kron(np.identity(2**(j-i-1)),
np.kron(op1, np.identity(2**i)))))`. -/
def two_site_operator (op1 op2 : Matrix (Fin 2) (Fin 2) ℂ) (i j n : ℕ) :
    Matrix (Fin (2 ^ n)) (Fin (2 ^ n)) ℂ :=
  if i > j then two_site_operator op2 op1 j i n
  else
    castTo (2 ^ n)
      (npKron (1 : Matrix (Fin (2 ^ (n - j - 1))) (Fin (2 ^ (n - j - 1))) ℂ)
        (npKron op2
          (npKron (1 : Matrix (Fin (2 ^ (j - i - 1))) (Fin (2 ^ (j - i - 1))) ℂ)
            (npKron op1 (1 : Matrix (Fin (2 ^ i)) (Fin (2 ^ i)) ℂ)))))
termination_by i - j
decreasing_by omega

/-- `construct_C_graph(edges, nvertices)` from the source: starts from the
zero matrix, adds `np.identity(2**nvertices) - two_site_operator(Zmat, Zmat,
edge[0], edge[1], nvertices)` for each edge, then multiplies by `0.5`. -/
def construct_C_graph (edges : List (ℕ × ℕ)) (nvertices : ℕ) :
    Matrix (Fin (2 ^ nvertices)) (Fin (2 ^ nvertices)) ℂ :=
  (0.5 : ℂ) •
    edges.foldl
      (fun C e => C + (1 - two_site_operator Zmat Zmat e.1 e.2 nvertices)) 0

/-- The notebook's 5-vertex Max-Cut instance:
`graph_edges = [(0, 1), (1, 2), (1, 3), (2, 4), (3, 4)]`. -/
def graph_edges : List (ℕ × ℕ) := [(0, 1), (1, 2), (1, 3), (2, 4), (3, 4)]

/-- `construct_B(n)` from the source: starts from the zero matrix and adds
`single_site_operator(Xmat, i, n)` for `i in range(n)`. -/
def construct_B (n : ℕ) : Matrix (Fin (2 ^ n)) (Fin (2 ^ n)) ℂ :=
  (List.range n).foldl (fun B i => B + single_site_operator Xmat i n) 0

/-- `uniform_state(n)` from the source: `np.ones(2**n) / np.sqrt(2**n)`. -/
def uniform_state (n : ℕ) : Fin (2 ^ n) → ℂ :=
  fun _ => (1 : ℂ) / (Real.sqrt (2 ^ n) : ℝ)

/-- `construct_wavefunction(B, C, βlist, γlist)` from the source: starting
from `uniform_state(n)` (the source recovers `n` as
`int(np.round(np.log2(len(B))))`, which here is the type index `n` itself
since `log2 (2 ^ n) = n`), it folds over `zip(βlist, γlist)`, replacing
`ψ` by `expm(-1j*β*B) @ (expm(-1j*γ*C) @ ψ)` at each step. -/
def construct_wavefunction {n : ℕ} (B C : Matrix (Fin (2 ^ n)) (Fin (2 ^ n)) ℂ)
    (βlist γlist : List ℝ) : Fin (2 ^ n) → ℂ :=
  (βlist.zip γlist).foldl
    (fun ψ bg =>
      (NormedSpace.exp ℂ ((-(Complex.I * (bg.1 : ℝ))) • B)).mulVec
        ((NormedSpace.exp ℂ ((-(Complex.I * (bg.2 : ℝ))) • C)).mulVec ψ))
    (uniform_state n)

/-- `target_expval(B, C, βlist, γlist)` from the source: builds
`ψ = construct_wavefunction(B, C, βlist, γlist)` and returns
`np.vdot(ψ, np.dot(C, ψ))` — the full complex scalar; the source takes no
real part (its own comment asks for one, see the claim about this). -/
def target_expval {n : ℕ} (B C : Matrix (Fin (2 ^ n)) (Fin (2 ^ n)) ℂ)
    (βlist γlist : List ℝ) : ℂ :=
  Matrix.dotProduct (star (construct_wavefunction B C βlist γlist))
    (C.mulVec (construct_wavefunction B C βlist γlist))

/-- `partial_trace(rho, dimA, dimB)` from the source: reshapes `rho` to the
tensor `rho[a, b, a', b'] = rho[a*dimB + b, a'*dimB + b']` (row-major) and
traces out axes `(1, 3)` for the first component and `(0, 2)` for the
second.  `finProdFinEquiv (a, b)` is exactly the row-major index
`a * dimB + b`. -/
def partial_trace {dimA dimB : ℕ}
    (rho : Matrix (Fin (dimA * dimB)) (Fin (dimA * dimB)) ℂ) :
    Matrix (Fin dimA) (Fin dimA) ℂ × Matrix (Fin dimB) (Fin dimB) ℂ :=
  (Matrix.of fun a a' =>
      ∑ b : Fin dimB, rho (finProdFinEquiv (a, b)) (finProdFinEquiv (a', b)),
   Matrix.of fun b b' =>
      ∑ a : Fin dimA, rho (finProdFinEquiv (a, b)) (finProdFinEquiv (a, b')))

/-- Runtime model of `single_site_operator` over arbitrary integer indices:
the Python body evaluates `np.identity(2**(n-j-1))` and `np.identity(2**j)`,
and `2 ** e` for a negative Python int `e` is a fraction, which
`np.identity` rejects with a `TypeError`; so the call returns normally
exactly when `0 ≤ j < n`, and raises (modelled by `none`) otherwise. -/
def single_site_operator_checked (op : Matrix (Fin 2) (Fin 2) ℂ) (j : ℤ) (n : ℕ) :
    Option (Matrix (Fin (2 ^ n)) (Fin (2 ^ n)) ℂ) :=
  if 0 ≤ j ∧ j < (n : ℤ) then some (single_site_operator op j.toNat n) else none

/-- Runtime model of `two_site_operator` over arbitrary integer indices: for
`i > j` the source flips the sites; otherwise its body evaluates
`np.identity(2**(n-j-1))`, `np.identity(2**(j-i-1))` and `np.identity(2**i)`,
which raise a `TypeError` as soon as one exponent is negative (in particular
when `i = j`); so after the flip the call returns normally exactly when
`0 ≤ i < j < n`, and raises (modelled by `none`) otherwise. -/
def two_site_operator_checked (op1 op2 : Matrix (Fin 2) (Fin 2) ℂ) (i j : ℤ) (n : ℕ) :
    Option (Matrix (Fin (2 ^ n)) (Fin (2 ^ n)) ℂ) :=
  if i > j then two_site_operator_checked op2 op1 j i n
  else if 0 ≤ i ∧ i < j ∧ j < (n : ℤ) then
    some (two_site_operator op1 op2 i.toNat j.toNat n)
  else none
termination_by (i - j).toNat
decreasing_by omega

/-- The Max-Cut value of the bit assignment `b`: the number of edges whose
endpoint bits in `b` differ (bit `k` of `b` is `b / 2 ^ k % 2`). -/
def cutCount (edges : List (ℕ × ℕ)) (b : ℕ) : ℕ :=
  edges.countP fun e => b / 2 ^ e.1 % 2 != b / 2 ^ e.2 % 2

/-- The literal cut-size sequence the notebook checks against for `n = 5`. -/
def cutList : List ℕ :=
  [0, 1, 3, 2, 2, 3, 3, 2, 2, 3, 3, 2, 4, 5, 3, 2,
   2, 3, 5, 4, 2, 3, 3, 2, 2, 3, 3, 2, 2, 3, 1, 0]

/-! ### Infrastructure about `npKron` and the dimension casts -/

lemma npKron_apply {a b : ℕ} (A : Matrix (Fin a) (Fin a) ℂ) (B : Matrix (Fin b) (Fin b) ℂ)
    (p q : Fin (a * b)) :
    npKron A B p q = A p.divNat q.divNat * B p.modNat q.modNat := rfl

lemma castM_apply {m m' : ℕ} (h : m = m') (A : Matrix (Fin m) (Fin m) ℂ) (i j : Fin m') :
    castM h A i j = A (Fin.cast h.symm i) (Fin.cast h.symm j) := rfl

lemma castTo_eq {N m : ℕ} (h : m = N) (A : Matrix (Fin m) (Fin m) ℂ) :
    castTo N A = castM h A := dif_pos h

lemma castM_castM {m m' m'' : ℕ} (h : m = m') (h' : m' = m'') (A : Matrix (Fin m) (Fin m) ℂ) :
    castM h' (castM h A) = castM (h.trans h') A := rfl

lemma castM_one {m m' : ℕ} (h : m = m') :
    castM h (1 : Matrix (Fin m) (Fin m) ℂ) = 1 := by
  ext i j
  rcases eq_or_ne i j with rfl | hij
  · simp [castM_apply, Matrix.one_apply]
  · rw [castM_apply, Matrix.one_apply_ne (fun hc => hij (by simpa using congrArg (Fin.cast h) hc)),
      Matrix.one_apply_ne hij]

lemma castM_mul {m m' : ℕ} (h : m = m') (A B : Matrix (Fin m) (Fin m) ℂ) :
    castM h A * castM h B = castM h (A * B) := by
  ext i j
  rw [castM_apply, Matrix.mul_apply, Matrix.mul_apply,
    ← Equiv.sum_comp (finCongr h) (fun k => castM h A i k * castM h B k j)]
  exact Finset.sum_congr rfl fun k _ => rfl

lemma divNat_modNat_inj {a b : ℕ} {p q : Fin (a * b)}
    (h1 : p.divNat = q.divNat) (h2 : p.modNat = q.modNat) : p = q :=
  finProdFinEquiv.symm.injective (show (p.divNat, p.modNat) = (q.divNat, q.modNat) by
    rw [h1, h2])

lemma divNat_finProdFinEquiv {a b : ℕ} (x : Fin a) (y : Fin b) :
    (finProdFinEquiv (x, y)).divNat = x :=
  congrArg Prod.fst (finProdFinEquiv.symm_apply_apply (x, y))

lemma modNat_finProdFinEquiv {a b : ℕ} (x : Fin a) (y : Fin b) :
    (finProdFinEquiv (x, y)).modNat = y :=
  congrArg Prod.snd (finProdFinEquiv.symm_apply_apply (x, y))

lemma npKron_one_one {a b : ℕ} :
    npKron (1 : Matrix (Fin a) (Fin a) ℂ) (1 : Matrix (Fin b) (Fin b) ℂ) = 1 := by
  ext p q
  rcases eq_or_ne p q with rfl | hpq
  · simp [npKron_apply]
  · rw [Matrix.one_apply_ne hpq, npKron_apply]
    by_cases hd : p.divNat = q.divNat
    · have hm : p.modNat ≠ q.modNat := fun hm => hpq (divNat_modNat_inj hd hm)
      rw [Matrix.one_apply_ne hm, mul_zero]
    · rw [Matrix.one_apply_ne hd, zero_mul]

lemma npKron_mul {a b : ℕ} (A C : Matrix (Fin a) (Fin a) ℂ) (B D : Matrix (Fin b) (Fin b) ℂ) :
    npKron A B * npKron C D = npKron (A * C) (B * D) := by
  ext p q
  rw [Matrix.mul_apply, npKron_apply, Matrix.mul_apply, Matrix.mul_apply,
    ← Equiv.sum_comp (finProdFinEquiv : Fin a × Fin b ≃ Fin (a * b))
      (fun r => npKron A B p r * npKron C D r q),
    Fintype.sum_prod_type, Finset.sum_mul_sum]
  refine Finset.sum_congr rfl fun x _ => Finset.sum_congr rfl fun y _ => ?_
  simp only [npKron_apply, divNat_finProdFinEquiv, modNat_finProdFinEquiv]
  ring

lemma npKron_castM_left {a a' b : ℕ} (h : a = a') (A : Matrix (Fin a) (Fin a) ℂ)
    (B : Matrix (Fin b) (Fin b) ℂ) :
    npKron (castM h A) B = castM (by rw [h]) (npKron A B) := by
  subst h; rfl

lemma npKron_castM_right {a b b' : ℕ} (h : b = b') (A : Matrix (Fin a) (Fin a) ℂ)
    (B : Matrix (Fin b) (Fin b) ℂ) :
    npKron A (castM h B) = castM (by rw [h]) (npKron A B) := by
  subst h; rfl

lemma npKron_assoc {a b c : ℕ} (A : Matrix (Fin a) (Fin a) ℂ) (B : Matrix (Fin b) (Fin b) ℂ)
    (C : Matrix (Fin c) (Fin c) ℂ) :
    npKron (npKron A B) C = castM (mul_assoc a b c).symm (npKron A (npKron B C)) := by
  have hA : ∀ r : Fin (a * b * c), r.divNat.divNat
      = (Fin.cast (mul_assoc a b c) r).divNat := by
    intro r
    apply Fin.ext
    simp only [Fin.coe_divNat, Fin.coe_cast]
    rw [Nat.div_div_eq_div_mul, Nat.mul_comm c b]
  have hB : ∀ r : Fin (a * b * c), r.divNat.modNat
      = (Fin.cast (mul_assoc a b c) r).modNat.divNat := by
    intro r
    apply Fin.ext
    simp only [Fin.coe_divNat, Fin.coe_modNat, Fin.coe_cast]
    rw [Nat.mul_comm b c, Nat.mod_mul_right_div_self]
  have hC : ∀ r : Fin (a * b * c), r.modNat
      = (Fin.cast (mul_assoc a b c) r).modNat.modNat := by
    intro r
    apply Fin.ext
    simp only [Fin.coe_modNat, Fin.coe_cast]
    rw [Nat.mod_mod_of_dvd _ (dvd_mul_left c b)]
  ext p q
  rw [npKron_apply, npKron_apply, castM_apply, npKron_apply, npKron_apply, mul_assoc,
    hA p, hA q, hB p, hB q, hC p, hC q]

/-! ### Row sums, adjoints and diagonality of the Kronecker factors -/

/-- The sum of the entries of row `p`. -/
def rowSum {m : ℕ} (A : Matrix (Fin m) (Fin m) ℂ) (p : Fin m) : ℂ := ∑ q, A p q

/-- The sum of the absolute values of the entries of row `p`. -/
def rowAbsSum {m : ℕ} (A : Matrix (Fin m) (Fin m) ℂ) (p : Fin m) : ℝ :=
  ∑ q, Complex.abs (A p q)

lemma rowSum_npKron {a b : ℕ} (A : Matrix (Fin a) (Fin a) ℂ) (B : Matrix (Fin b) (Fin b) ℂ)
    (p : Fin (a * b)) :
    rowSum (npKron A B) p = rowSum A p.divNat * rowSum B p.modNat := by
  rw [rowSum, rowSum, rowSum, Finset.sum_mul_sum,
    ← Equiv.sum_comp (finProdFinEquiv : Fin a × Fin b ≃ Fin (a * b)) (fun q => npKron A B p q),
    Fintype.sum_prod_type]
  refine Finset.sum_congr rfl fun x _ => Finset.sum_congr rfl fun y _ => ?_
  rw [npKron_apply, divNat_finProdFinEquiv, modNat_finProdFinEquiv]

lemma rowAbsSum_npKron {a b : ℕ} (A : Matrix (Fin a) (Fin a) ℂ) (B : Matrix (Fin b) (Fin b) ℂ)
    (p : Fin (a * b)) :
    rowAbsSum (npKron A B) p = rowAbsSum A p.divNat * rowAbsSum B p.modNat := by
  rw [rowAbsSum, rowAbsSum, rowAbsSum, Finset.sum_mul_sum,
    ← Equiv.sum_comp (finProdFinEquiv : Fin a × Fin b ≃ Fin (a * b))
      (fun q => Complex.abs (npKron A B p q)),
    Fintype.sum_prod_type]
  refine Finset.sum_congr rfl fun x _ => Finset.sum_congr rfl fun y _ => ?_
  rw [npKron_apply, divNat_finProdFinEquiv, modNat_finProdFinEquiv,
    AbsoluteValue.map_mul]

lemma rowSum_castM {m m' : ℕ} (h : m = m') (A : Matrix (Fin m) (Fin m) ℂ) (p : Fin m') :
    rowSum (castM h A) p = rowSum A (Fin.cast h.symm p) := by
  rw [rowSum, rowSum, ← Equiv.sum_comp (finCongr h) (fun q => castM h A p q)]
  exact Finset.sum_congr rfl fun q _ => rfl

lemma rowAbsSum_castM {m m' : ℕ} (h : m = m') (A : Matrix (Fin m) (Fin m) ℂ) (p : Fin m') :
    rowAbsSum (castM h A) p = rowAbsSum A (Fin.cast h.symm p) := by
  rw [rowAbsSum, rowAbsSum,
    ← Equiv.sum_comp (finCongr h) (fun q => Complex.abs (castM h A p q))]
  exact Finset.sum_congr rfl fun q _ => rfl

lemma rowSum_one {m : ℕ} (p : Fin m) : rowSum (1 : Matrix (Fin m) (Fin m) ℂ) p = 1 := by
  simp [rowSum, Matrix.one_apply]

lemma rowAbsSum_one {m : ℕ} (p : Fin m) : rowAbsSum (1 : Matrix (Fin m) (Fin m) ℂ) p = 1 := by
  simp [rowAbsSum, Matrix.one_apply, apply_ite Complex.abs]

lemma rowSum_Xmat (p : Fin 2) : rowSum Xmat p = 1 := by
  fin_cases p <;> simp [rowSum, Xmat, Fin.sum_univ_two]

lemma rowAbsSum_Xmat (p : Fin 2) : rowAbsSum Xmat p = 1 := by
  fin_cases p <;> simp [rowAbsSum, Xmat, Fin.sum_univ_two]

lemma npKron_conjTranspose {a b : ℕ} (A : Matrix (Fin a) (Fin a) ℂ)
    (B : Matrix (Fin b) (Fin b) ℂ) :
    (npKron A B)ᴴ = npKron Aᴴ Bᴴ := by
  ext p q
  simp [npKron_apply, Matrix.conjTranspose_apply, star_mul']

lemma castM_conjTranspose {m m' : ℕ} (h : m = m') (A : Matrix (Fin m) (Fin m) ℂ) :
    (castM h A)ᴴ = castM h Aᴴ := rfl

lemma Xmat_conjTranspose : Xmatᴴ = Xmat := by
  ext i j
  fin_cases i <;> fin_cases j <;> simp [Xmat]

lemma Zmat_diag (b : Fin 2) : Zmat b b = (-1 : ℂ) ^ (b : ℕ) := by
  fin_cases b <;> simp [Zmat]

lemma Zmat_isDiag : Zmat.IsDiag := by
  intro a b hab
  fin_cases a <;> fin_cases b <;> simp_all [Zmat]

lemma npKron_isDiag {a b : ℕ} {A : Matrix (Fin a) (Fin a) ℂ} {B : Matrix (Fin b) (Fin b) ℂ}
    (hA : A.IsDiag) (hB : B.IsDiag) : (npKron A B).IsDiag := by
  intro p q hpq
  rw [npKron_apply]
  by_cases hd : p.divNat = q.divNat
  · have hm : p.modNat ≠ q.modNat := fun hm => hpq (divNat_modNat_inj hd hm)
    rw [hB hm, mul_zero]
  · rw [hA hd, zero_mul]

lemma castM_isDiag {m m' : ℕ} (h : m = m') {A : Matrix (Fin m) (Fin m) ℂ}
    (hA : A.IsDiag) : (castM h A).IsDiag := by
  intro p q hpq
  rw [castM_apply]
  exact hA fun hc => hpq (by simpa using congrArg (Fin.cast h) hc)

/-! ### Folds as sums -/

lemma foldl_add_eq {α M : Type*} [AddCommMonoid M] (f : α → M) (l : List α) (init : M) :
    l.foldl (fun acc x => acc + f x) init = init + (l.map f).sum := by
  induction l generalizing init with
  | nil => simp
  | cons a t ih => simp [ih, add_assoc]

lemma list_sum_apply {m : ℕ} (l : List (Matrix (Fin m) (Fin m) ℂ)) (p q : Fin m) :
    l.sum p q = (l.map (fun A => A p q)).sum := by
  induction l with
  | nil => rfl
  | cons A t ih => simp [ih]

lemma list_range_map_sum {M : Type*} [AddCommMonoid M] (f : ℕ → M) (n : ℕ) :
    ((List.range n).map f).sum = ∑ i ∈ Finset.range n, f i := by
  induction n with
  | zero => rfl
  | succ k ih => rw [List.range_succ, List.map_append, List.sum_append, Finset.sum_range_succ, ih]; simp

lemma construct_B_eq_sum (n : ℕ) :
    construct_B n = ∑ i ∈ Finset.range n, single_site_operator Xmat i n := by
  rw [construct_B, foldl_add_eq, zero_add, list_range_map_sum]

lemma construct_C_graph_eq_sum (edges : List (ℕ × ℕ)) (n : ℕ) :
    construct_C_graph edges n =
      (0.5 : ℂ) •
        (edges.map (fun e => 1 - two_site_operator Zmat Zmat e.1 e.2 n)).sum := by
  rw [construct_C_graph, foldl_add_eq, zero_add]

/-! ### The dimensions of the Kronecker-composed operators -/

lemma single_site_dim {j n : ℕ} (hj : j < n) : 2 ^ (n - j - 1) * (2 * 2 ^ j) = 2 ^ n := by
  rw [show 2 * 2 ^ j = 2 ^ (j + 1) by rw [pow_succ]; ring, ← pow_add]
  congr 1
  omega

lemma two_site_inner_dim {i j : ℕ} (hij : i < j) :
    2 ^ (j - i - 1) * (2 * 2 ^ i) = 2 ^ j := by
  rw [show 2 * 2 ^ i = 2 ^ (i + 1) by rw [pow_succ]; ring, ← pow_add]
  congr 1
  omega

lemma two_site_dim {i j n : ℕ} (hij : i < j) (hj : j < n) :
    2 ^ (n - j - 1) * (2 * (2 ^ (j - i - 1) * (2 * 2 ^ i))) = 2 ^ n := by
  rw [two_site_inner_dim hij]
  exact single_site_dim hj

/-! ### The diagonal of `two_site_operator Zmat Zmat` -/

lemma two_site_ZZ_diag {i j n : ℕ} (hij : i < j) (hj : j < n) (p : Fin (2 ^ n)) :
    two_site_operator Zmat Zmat i j n p p =
      (-1 : ℂ) ^ ((p : ℕ) / 2 ^ j % 2) * (-1 : ℂ) ^ ((p : ℕ) / 2 ^ i % 2) := by
  have hx : ((Fin.cast (two_site_dim hij hj).symm p).modNat.divNat : Fin 2)
      = ⟨(p : ℕ) / 2 ^ j % 2, by omega⟩ := by
    apply Fin.ext
    simp only [Fin.coe_divNat, Fin.coe_modNat, Fin.coe_cast]
    rw [two_site_inner_dim hij, Nat.mul_comm 2 (2 ^ j), Nat.mod_mul_right_div_self]
  have hy : ((Fin.cast (two_site_dim hij hj).symm p).modNat.modNat.modNat.divNat : Fin 2)
      = ⟨(p : ℕ) / 2 ^ i % 2, by omega⟩ := by
    apply Fin.ext
    simp only [Fin.coe_divNat, Fin.coe_modNat, Fin.coe_cast]
    rw [two_site_inner_dim hij, Nat.mod_mod_of_dvd _ (dvd_mul_left (2 ^ j) 2),
      show 2 * 2 ^ i = 2 ^ (i + 1) by rw [pow_succ]; ring,
      Nat.mod_mod_of_dvd _ (pow_dvd_pow 2 (by omega : i + 1 ≤ j)),
      show (2 : ℕ) ^ (i + 1) = 2 ^ i * 2 by rw [pow_succ],
      Nat.mod_mul_right_div_self]
  rw [two_site_operator, if_neg (by omega), castTo_eq (two_site_dim hij hj), castM_apply,
    npKron_apply, npKron_apply, npKron_apply, npKron_apply, Matrix.one_apply_eq,
    Matrix.one_apply_eq, Matrix.one_apply_eq, hx, hy, Zmat_diag, Zmat_diag]
  ring

lemma two_site_ZZ_diag' {i j n : ℕ} (hij : i ≠ j) (hi : i < n) (hj : j < n) (p : Fin (2 ^ n)) :
    two_site_operator Zmat Zmat i j n p p =
      (-1 : ℂ) ^ ((p : ℕ) / 2 ^ i % 2) * (-1 : ℂ) ^ ((p : ℕ) / 2 ^ j % 2) := by
  rcases lt_or_gt_of_ne hij with h | h
  · rw [two_site_ZZ_diag h hj, mul_comm]
  · rw [two_site_operator, if_pos h, two_site_ZZ_diag h hi]

lemma two_site_ZZ_isDiag {i j n : ℕ} (hij : i ≠ j) (hi : i < n) (hj : j < n) :
    (two_site_operator Zmat Zmat i j n).IsDiag := by
  rcases lt_or_gt_of_ne hij with h | h
  · rw [two_site_operator, if_neg (by omega), castTo_eq (two_site_dim h hj)]
    exact castM_isDiag _ (npKron_isDiag Matrix.isDiag_one (npKron_isDiag Zmat_isDiag
      (npKron_isDiag Matrix.isDiag_one (npKron_isDiag Zmat_isDiag Matrix.isDiag_one))))
  · rw [two_site_operator, if_pos h, two_site_operator, if_neg (by omega),
      castTo_eq (two_site_dim h hi)]
    exact castM_isDiag _ (npKron_isDiag Matrix.isDiag_one (npKron_isDiag Zmat_isDiag
      (npKron_isDiag Matrix.isDiag_one (npKron_isDiag Zmat_isDiag Matrix.isDiag_one))))

lemma edge_term_diag {i j n : ℕ} (hij : i ≠ j) (hi : i < n) (hj : j < n) (p : Fin (2 ^ n)) :
    (1 - two_site_operator Zmat Zmat i j n) p p =
      if (p : ℕ) / 2 ^ i % 2 ≠ (p : ℕ) / 2 ^ j % 2 then 2 else 0 := by
  rw [Matrix.sub_apply, Matrix.one_apply_eq, two_site_ZZ_diag' hij hi hj]
  have ha := Nat.mod_two_eq_zero_or_one ((p : ℕ) / 2 ^ i)
  have hb := Nat.mod_two_eq_zero_or_one ((p : ℕ) / 2 ^ j)
  rcases ha with ha | ha <;> rcases hb with hb | hb <;> rw [ha, hb] <;> norm_num

lemma construct_C_graph_isDiag (edges : List (ℕ × ℕ)) {n : ℕ}
    (h : ∀ e ∈ edges, e.1 ≠ e.2 ∧ e.1 < n ∧ e.2 < n) :
    (construct_C_graph edges n).IsDiag := by
  rw [construct_C_graph_eq_sum]
  refine Matrix.IsDiag.smul _ ?_
  induction edges with
  | nil => exact Matrix.isDiag_zero
  | cons e t ih =>
    obtain ⟨hne, h1, h2⟩ := h e (List.mem_cons_self e t)
    rw [List.map_cons, List.sum_cons]
    exact ((Matrix.isDiag_one.sub (two_site_ZZ_isDiag hne h1 h2)).add
      (ih fun e' he' => h e' (List.mem_cons_of_mem e he')))

lemma cutCount_cons (e : ℕ × ℕ) (t : List (ℕ × ℕ)) (b : ℕ) :
    cutCount (e :: t) b = cutCount t b + if b / 2 ^ e.1 % 2 ≠ b / 2 ^ e.2 % 2 then 1 else 0 := by
  simp only [cutCount, List.countP_cons]
  by_cases hc : b / 2 ^ e.1 % 2 = b / 2 ^ e.2 % 2 <;> simp [hc]

lemma construct_C_graph_diag (edges : List (ℕ × ℕ)) {n : ℕ}
    (h : ∀ e ∈ edges, e.1 ≠ e.2 ∧ e.1 < n ∧ e.2 < n) (p : Fin (2 ^ n)) :
    construct_C_graph edges n p p = (cutCount edges p : ℂ) := by
  rw [construct_C_graph_eq_sum, Matrix.smul_apply, list_sum_apply]
  induction edges with
  | nil => simp [cutCount]
  | cons e t ih =>
    obtain ⟨hne, h1, h2⟩ := h e (List.mem_cons_self e t)
    have iht := ih fun e' he' => h e' (List.mem_cons_of_mem e he')
    rw [smul_eq_mul] at iht
    rw [List.map_cons, List.map_cons, List.sum_cons, smul_eq_mul, mul_add, iht,
      edge_term_diag hne h1 h2, cutCount_cons]
    by_cases hcut : (p : ℕ) / 2 ^ e.1 % 2 ≠ (p : ℕ) / 2 ^ e.2 % 2
    · rw [if_pos hcut, if_pos hcut]
      push_cast
      ring
    · rw [if_neg hcut, if_neg hcut]
      push_cast
      ring

lemma zip_take_min {α β : Type*} (l1 : List α) (l2 : List β) :
    (l1.take (min l1.length l2.length)).zip (l2.take (min l1.length l2.length)) = l1.zip l2 := by
  induction l1 generalizing l2 with
  | nil => simp
  | cons a t ih =>
    cases l2 with
    | nil => simp
    | cons b s =>
      rw [List.length_cons, List.length_cons, Nat.succ_min_succ, List.take_succ_cons,
        List.take_succ_cons, List.zip_cons_cons, List.zip_cons_cons, ih]

/-! ### The claims -/

/-- **C1.** For every list of edges `(j, k)` with `0 ≤ j, k < n` and `j ≠ k`,
`construct_C_graph` (the `buildCostOperator` of the spec) returns a matrix
that is diagonal in the computational basis, whose diagonal entry at basis
index `b` equals the number of edges whose endpoint bits in `b` differ (the
cut size of assignment `b`); in particular for `n = 5` and
`edges = [(0,1), (1,2), (1,3), (2,4), (3,4)]` the diagonal equals the literal
sequence `cutList`. -/
theorem construct_C_graph_spec (edges : List (ℕ × ℕ)) (n : ℕ)
    (h : ∀ e ∈ edges, e.1 ≠ e.2 ∧ e.1 < n ∧ e.2 < n) :
    (∀ a b : Fin (2 ^ n), a ≠ b → construct_C_graph edges n a b = 0) ∧
    (∀ b : Fin (2 ^ n), construct_C_graph edges n b b = (cutCount edges (b : ℕ) : ℂ)) ∧
    (∀ b : Fin (2 ^ 5), construct_C_graph graph_edges 5 b b
        = ((cutList.get ⟨(b : ℕ), b.isLt⟩ : ℕ) : ℂ)) := by
  have hall : ∀ b : Fin (2 ^ 5),
      cutCount graph_edges (b : ℕ) = cutList.get ⟨(b : ℕ), b.isLt⟩ := by decide
  refine ⟨fun a b hab => construct_C_graph_isDiag edges h hab,
    construct_C_graph_diag edges h, fun b => ?_⟩
  rw [construct_C_graph_diag graph_edges (by decide) b, hall b]

/-- Witness for C1 at the notebook's instance: the diagonal entry at basis
index 13 (bit string 01101) is the maximal cut value 5. -/
theorem construct_C_graph_spec_witness :
    construct_C_graph graph_edges 5 ⟨13, by norm_num⟩ ⟨13, by norm_num⟩ = (5 : ℂ) := by
  have h := (construct_C_graph_spec graph_edges 5 (by decide)).2.1 ⟨13, by norm_num⟩
  rw [h, show cutCount graph_edges ((⟨13, by norm_num⟩ : Fin (2 ^ 5)) : ℕ) = 5 from by decide]
  norm_num

/-- **C4 counterexample.** Called with `βlist = [0]` and `γlist = []` (unequal
lengths), `construct_wavefunction` does not reject the call: `zip` drops the
extra `β` silently and the call returns the uniform state, refuting the claim
that unequal-length parameter lists are rejected eagerly with a descriptive
error. -/
theorem construct_wavefunction_unequal_lengths_no_error :
    construct_wavefunction (n := 0) 0 0 [(0 : ℝ)] [] = uniform_state 0 := rfl

/-- **C4 amended.** `construct_wavefunction` performs no length validation:
`zip(βlist, γlist)` silently truncates both lists to the shorter length, so
the call always behaves as if both lists were cut to
`min (len βlist) (len γlist)`; nothing is padded and no error is raised. -/
theorem construct_wavefunction_truncates {n : ℕ}
    (B C : Matrix (Fin (2 ^ n)) (Fin (2 ^ n)) ℂ) (βlist γlist : List ℝ) :
    construct_wavefunction B C βlist γlist =
      construct_wavefunction B C (βlist.take (min βlist.length γlist.length))
        (γlist.take (min βlist.length γlist.length)) := by
  rw [construct_wavefunction, construct_wavefunction, zip_take_min]

/-- **C7.** For all 2×2 matrices `op1`, `op2` and qubit indices
`0 ≤ i, j < n` with `i ≠ j`, `two_site_operator (op1, op2, i, j, n)` equals
`two_site_operator (op2, op1, j, i, n)`: the result is the same regardless of
whether `i < j` or `i > j` is passed. -/
theorem two_site_operator_symm (op1 op2 : Matrix (Fin 2) (Fin 2) ℂ) {i j n : ℕ}
    (hi : i < n) (hj : j < n) (hij : i ≠ j) :
    two_site_operator op1 op2 i j n = two_site_operator op2 op1 j i n := by
  rcases lt_or_gt_of_ne hij with h | h
  · conv_rhs => rw [two_site_operator]
    rw [if_pos h]
  · conv_lhs => rw [two_site_operator]
    rw [if_pos h]

/-- Witness for C7 at a concrete input. -/
theorem two_site_operator_symm_witness :
    two_site_operator Xmat Zmat 0 2 3 = two_site_operator Zmat Xmat 2 0 3 :=
  two_site_operator_symm Xmat Zmat (by norm_num) (by norm_num) (by norm_num)

/-- **C8.** Every qubit index outside `[0, n)` passed to
`single_site_operator` or `two_site_operator` (and `i = j` passed to
`two_site_operator`) makes the call fail — the body feeds `np.identity` a
fractional size `2 ** e` with `e < 0`, which raises — rather than silently
wrapping the index or returning a malformed matrix.  The runtime models
return `none` exactly in those cases. -/
theorem site_operator_checked_reject :
    (∀ (op : Matrix (Fin 2) (Fin 2) ℂ) (j : ℤ) (n : ℕ), (j < 0 ∨ (n : ℤ) ≤ j) →
      single_site_operator_checked op j n = none) ∧
    (∀ (op1 op2 : Matrix (Fin 2) (Fin 2) ℂ) (i j : ℤ) (n : ℕ),
      (i < 0 ∨ (n : ℤ) ≤ i ∨ j < 0 ∨ (n : ℤ) ≤ j ∨ i = j) →
      two_site_operator_checked op1 op2 i j n = none) := by
  constructor
  · intro op j n h
    rw [single_site_operator_checked, if_neg (by omega)]
  · intro op1 op2 i j n h
    rcases le_or_lt i j with hle | hgt
    · rw [two_site_operator_checked, if_neg (by omega), if_neg (by omega)]
    · rw [two_site_operator_checked, if_pos hgt, two_site_operator_checked,
        if_neg (by omega), if_neg (by omega)]

/-- Witness for C8 at concrete inputs: index 5 on a 3-qubit register, and a
repeated site `i = j = 2`. -/
theorem site_operator_checked_reject_witness :
    single_site_operator_checked Xmat 5 3 = none ∧
    two_site_operator_checked Zmat Zmat 2 2 5 = none :=
  ⟨site_operator_checked_reject.1 Xmat 5 3 (by decide),
   site_operator_checked_reject.2 Zmat Zmat 2 2 5 (by decide)⟩

/-! ### The mixer operator `construct_B` -/

lemma single_site_X_conjTranspose {j n : ℕ} (hj : j < n) :
    (single_site_operator Xmat j n)ᴴ = single_site_operator Xmat j n := by
  rw [single_site_operator, castTo_eq (single_site_dim hj), castM_conjTranspose,
    npKron_conjTranspose, npKron_conjTranspose, Matrix.conjTranspose_one,
    Xmat_conjTranspose, Matrix.conjTranspose_one]

lemma rowSum_single_site_X {j n : ℕ} (hj : j < n) (p : Fin (2 ^ n)) :
    rowSum (single_site_operator Xmat j n) p = 1 := by
  rw [single_site_operator, castTo_eq (single_site_dim hj), rowSum_castM, rowSum_npKron,
    rowSum_npKron, rowSum_one, rowSum_Xmat, rowSum_one]
  ring

lemma rowAbsSum_single_site_X {j n : ℕ} (hj : j < n) (p : Fin (2 ^ n)) :
    rowAbsSum (single_site_operator Xmat j n) p = 1 := by
  rw [single_site_operator, castTo_eq (single_site_dim hj), rowAbsSum_castM,
    rowAbsSum_npKron, rowAbsSum_npKron, rowAbsSum_one, rowAbsSum_Xmat, rowAbsSum_one]
  ring

lemma sum_mulVec_apply {m : ℕ} {ι : Type*} (s : Finset ι)
    (f : ι → Matrix (Fin m) (Fin m) ℂ) (v : Fin m → ℂ) (p : Fin m) :
    (∑ i ∈ s, f i).mulVec v p = ∑ i ∈ s, (f i).mulVec v p := by
  simp only [Matrix.mulVec, Matrix.dotProduct, Matrix.sum_apply, Finset.sum_mul]
  exact Finset.sum_comm

lemma mulVec_const {m : ℕ} (A : Matrix (Fin m) (Fin m) ℂ) (c : ℂ) (p : Fin m) :
    A.mulVec (fun _ => c) p = rowSum A p * c := by
  rw [Matrix.mulVec, Matrix.dotProduct, rowSum, Finset.sum_mul]

lemma abs_mulVec_le {m : ℕ} (A : Matrix (Fin m) (Fin m) ℂ) (v : Fin m → ℂ) (p : Fin m)
    (M0 : ℝ) (hM : ∀ q, Complex.abs (v q) ≤ M0) :
    Complex.abs (A.mulVec v p) ≤ rowAbsSum A p * M0 := by
  rw [Matrix.mulVec, Matrix.dotProduct]
  calc Complex.abs (∑ q, A p q * v q) ≤ ∑ q, Complex.abs (A p q * v q) :=
        Complex.abs.sum_le _ _
    _ = ∑ q, Complex.abs (A p q) * Complex.abs (v q) := by
        simp [AbsoluteValue.map_mul]
    _ ≤ ∑ q, Complex.abs (A p q) * M0 :=
        Finset.sum_le_sum fun q _ =>
          mul_le_mul_of_nonneg_left (hM q) (AbsoluteValue.nonneg _ _)
    _ = rowAbsSum A p * M0 := by rw [rowAbsSum, Finset.sum_mul]

lemma construct_B_conjTranspose (n : ℕ) : (construct_B n)ᴴ = construct_B n := by
  rw [construct_B_eq_sum, Matrix.conjTranspose_sum]
  exact Finset.sum_congr rfl fun i hi =>
    single_site_X_conjTranspose (Finset.mem_range.mp hi)

lemma construct_B_mulVec_uniform (n : ℕ) :
    (construct_B n).mulVec (uniform_state n) = (n : ℂ) • uniform_state n := by
  funext p
  rw [construct_B_eq_sum, sum_mulVec_apply]
  have : ∀ i ∈ Finset.range n,
      (single_site_operator Xmat i n).mulVec (uniform_state n) p
        = (1 : ℂ) / (Real.sqrt (2 ^ n) : ℝ) := by
    intro i hi
    rw [show uniform_state n = fun _ => (1 : ℂ) / (Real.sqrt (2 ^ n) : ℝ) from rfl,
      mulVec_const, rowSum_single_site_X (Finset.mem_range.mp hi), one_mul]
  rw [Finset.sum_congr rfl this, Finset.sum_const, Finset.card_range]
  simp [uniform_state, mul_comm]

/-- **C6.** For every `n ≥ 1`, `construct_B` returns a Hermitian matrix; the
uniform state is an eigenvector with eigenvalue `n` (`B · s = n · s`); and
every eigenvalue `μ` of `B` satisfies `|μ| ≤ n`, so `n` is the largest
eigenvalue. -/
theorem construct_B_spec (n : ℕ) (hn : 1 ≤ n) :
    (construct_B n)ᴴ = construct_B n ∧
    (construct_B n).mulVec (uniform_state n) = (n : ℂ) • uniform_state n ∧
    (∀ (μ : ℂ) (v : Fin (2 ^ n) → ℂ), v ≠ 0 →
      (construct_B n).mulVec v = μ • v → Complex.abs μ ≤ n) := by
  refine ⟨construct_B_conjTranspose n, construct_B_mulVec_uniform n, ?_⟩
  intro μ v hv hev
  have hne : (Finset.univ : Finset (Fin (2 ^ n))).Nonempty :=
    ⟨⟨0, pow_pos (by norm_num) n⟩, Finset.mem_univ _⟩
  obtain ⟨p0, -, hp0⟩ :=
    Finset.exists_max_image Finset.univ (fun q => Complex.abs (v q)) hne
  have hp0' : ∀ q, Complex.abs (v q) ≤ Complex.abs (v p0) :=
    fun q => hp0 q (Finset.mem_univ q)
  obtain ⟨q0, hq0⟩ := Function.ne_iff.mp hv
  have hpos : 0 < Complex.abs (v p0) :=
    lt_of_lt_of_le (by simpa using hq0) (hp0' q0)
  have hbound : Complex.abs ((construct_B n).mulVec v p0) ≤ n * Complex.abs (v p0) := by
    rw [construct_B_eq_sum, sum_mulVec_apply]
    calc Complex.abs (∑ i ∈ Finset.range n, (single_site_operator Xmat i n).mulVec v p0)
        ≤ ∑ i ∈ Finset.range n,
            Complex.abs ((single_site_operator Xmat i n).mulVec v p0) :=
          Complex.abs.sum_le _ _
      _ ≤ ∑ i ∈ Finset.range n, Complex.abs (v p0) := by
          refine Finset.sum_le_sum fun i hi => ?_
          have := abs_mulVec_le (single_site_operator Xmat i n) v p0
            (Complex.abs (v p0)) hp0'
          rwa [rowAbsSum_single_site_X (Finset.mem_range.mp hi), one_mul] at this
      _ = n * Complex.abs (v p0) := by
          rw [Finset.sum_const, Finset.card_range, nsmul_eq_mul]
  have heq : Complex.abs μ * Complex.abs (v p0) ≤ n * Complex.abs (v p0) := by
    have := congrFun hev p0
    rw [this] at hbound
    simpa [AbsoluteValue.map_mul] using hbound
  exact le_of_mul_le_mul_right heq hpos

/-- Witness for C6 at `n = 1`: `construct_B 1 = X` is Hermitian, the uniform
state is an eigenvector with eigenvalue `1`, and the eigenvalue bound applied
to that eigenpair gives `|1| ≤ 1`. -/
theorem construct_B_spec_witness :
    (construct_B 1)ᴴ = construct_B 1 ∧
    (construct_B 1).mulVec (uniform_state 1) = ((1 : ℕ) : ℂ) • uniform_state 1 ∧
    Complex.abs 1 ≤ (1 : ℕ) := by
  have h := construct_B_spec 1 (le_refl 1)
  refine ⟨h.1, h.2.1, ?_⟩
  have hvne : uniform_state 1 ≠ 0 := by
    intro hz
    have h0 := congrFun hz ⟨0, by norm_num⟩
    rw [uniform_state] at h0
    simp only [Pi.zero_apply, div_eq_zero_iff, one_ne_zero, false_or,
      Complex.ofReal_eq_zero] at h0
    exact absurd h0 (ne_of_gt (Real.sqrt_pos.mpr (by norm_num)))
  have hev : (construct_B 1).mulVec (uniform_state 1) = (1 : ℂ) • uniform_state 1 := by
    rw [h.2.1]
    norm_num
  exact h.2.2 1 (uniform_state 1) hvne hev

/-! ### The partial trace -/

/-- **C9.** For every matrix `rho` of dimension `dimA * dimB` and every matrix
`M` of dimension `dimA`, the first component of `partial_trace rho` (the
reduced matrix with subsystem B traced out) satisfies
`trace (M * rho_A) = trace ((M ⊗ I_dimB) * rho)`.  Proved for all complex
matrices, hence in particular for every density matrix `rho` and Hermitian
`M` as the claim states. -/
theorem partial_trace_consistency {dimA dimB : ℕ}
    (rho : Matrix (Fin (dimA * dimB)) (Fin (dimA * dimB)) ℂ)
    (M : Matrix (Fin dimA) (Fin dimA) ℂ) :
    Matrix.trace (M * (partial_trace rho).1) =
      Matrix.trace (npKron M (1 : Matrix (Fin dimB) (Fin dimB) ℂ) * rho) := by
  have L : Matrix.trace (M * (partial_trace rho).1)
      = ∑ a : Fin dimA, ∑ a' : Fin dimA, ∑ b : Fin dimB,
          M a a' * rho (finProdFinEquiv (a', b)) (finProdFinEquiv (a, b)) := by
    rw [Matrix.trace]
    refine Finset.sum_congr rfl fun a _ => ?_
    rw [Matrix.diag_apply, Matrix.mul_apply]
    refine Finset.sum_congr rfl fun a' _ => ?_
    rw [show (partial_trace rho).1 a' a
        = ∑ b : Fin dimB, rho (finProdFinEquiv (a', b)) (finProdFinEquiv (a, b)) from rfl,
      Finset.mul_sum]
  have R : Matrix.trace (npKron M 1 * rho)
      = ∑ a : Fin dimA, ∑ b : Fin dimB, ∑ a' : Fin dimA,
          M a a' * rho (finProdFinEquiv (a', b)) (finProdFinEquiv (a, b)) := by
    rw [Matrix.trace,
      ← Equiv.sum_comp (finProdFinEquiv : Fin dimA × Fin dimB ≃ Fin (dimA * dimB))
        (fun p => Matrix.diag (npKron M 1 * rho) p),
      Fintype.sum_prod_type]
    refine Finset.sum_congr rfl fun a _ => Finset.sum_congr rfl fun b _ => ?_
    rw [Matrix.diag_apply, Matrix.mul_apply,
      ← Equiv.sum_comp (finProdFinEquiv : Fin dimA × Fin dimB ≃ Fin (dimA * dimB))
        (fun q => npKron M 1 (finProdFinEquiv (a, b)) q * rho q (finProdFinEquiv (a, b))),
      Fintype.sum_prod_type]
    refine Finset.sum_congr rfl fun a' _ => ?_
    simp only [npKron_apply, divNat_finProdFinEquiv, modNat_finProdFinEquiv,
      Matrix.one_apply, mul_ite, ite_mul, mul_one, mul_zero, zero_mul]
    rw [Finset.sum_ite_eq]
    simp
  rw [L, R]
  exact Finset.sum_congr rfl fun a _ => Finset.sum_comm

/-! ### The two-site operator as a product of single-site operators -/

lemma two_site_high_dim {i j n : ℕ} (hij : i < j) (hj : j < n) :
    2 ^ (n - j - 1) * (2 * 2 ^ (j - i - 1)) = 2 ^ (n - i - 1) := by
  rw [show 2 * 2 ^ (j - i - 1) = 2 ^ (j - i - 1 + 1) by rw [pow_succ]; ring, ← pow_add]
  congr 1
  omega

lemma single_high_factor {i j n : ℕ} (hij : i < j) (hj : j < n)
    (op2 : Matrix (Fin 2) (Fin 2) ℂ) :
    single_site_operator op2 j n
      = castM (two_site_dim hij hj)
          (npKron (1 : Matrix (Fin (2 ^ (n - j - 1))) (Fin (2 ^ (n - j - 1))) ℂ)
            (npKron op2
              (npKron (1 : Matrix (Fin (2 ^ (j - i - 1))) (Fin (2 ^ (j - i - 1))) ℂ)
                (npKron (1 : Matrix (Fin 2) (Fin 2) ℂ)
                  (1 : Matrix (Fin (2 ^ i)) (Fin (2 ^ i)) ℂ))))) := by
  rw [single_site_operator, castTo_eq (single_site_dim hj),
    show (1 : Matrix (Fin (2 ^ j)) (Fin (2 ^ j)) ℂ)
      = castM (two_site_inner_dim hij)
          (npKron (1 : Matrix (Fin (2 ^ (j - i - 1))) (Fin (2 ^ (j - i - 1))) ℂ)
            (npKron (1 : Matrix (Fin 2) (Fin 2) ℂ)
              (1 : Matrix (Fin (2 ^ i)) (Fin (2 ^ i)) ℂ)))
      from by rw [npKron_one_one, npKron_one_one, castM_one],
    npKron_castM_right, npKron_castM_right, castM_castM]

lemma single_low_factor {i j n : ℕ} (hij : i < j) (hj : j < n)
    (op1 : Matrix (Fin 2) (Fin 2) ℂ) :
    single_site_operator op1 i n
      = castM (two_site_dim hij hj)
          (npKron (1 : Matrix (Fin (2 ^ (n - j - 1))) (Fin (2 ^ (n - j - 1))) ℂ)
            (npKron (1 : Matrix (Fin 2) (Fin 2) ℂ)
              (npKron (1 : Matrix (Fin (2 ^ (j - i - 1))) (Fin (2 ^ (j - i - 1))) ℂ)
                (npKron op1 (1 : Matrix (Fin (2 ^ i)) (Fin (2 ^ i)) ℂ))))) := by
  rw [single_site_operator, castTo_eq (single_site_dim (hij.trans hj)),
    show (1 : Matrix (Fin (2 ^ (n - i - 1))) (Fin (2 ^ (n - i - 1))) ℂ)
      = castM (two_site_high_dim hij hj)
          (npKron (1 : Matrix (Fin (2 ^ (n - j - 1))) (Fin (2 ^ (n - j - 1))) ℂ)
            (npKron (1 : Matrix (Fin 2) (Fin 2) ℂ)
              (1 : Matrix (Fin (2 ^ (j - i - 1))) (Fin (2 ^ (j - i - 1))) ℂ)))
      from by rw [npKron_one_one, npKron_one_one, castM_one],
    npKron_castM_left, npKron_assoc, npKron_assoc, npKron_castM_right,
    castM_castM, castM_castM, castM_castM]

lemma two_site_eq_core {i j n : ℕ} (hij : i < j) (hj : j < n)
    (op1 op2 : Matrix (Fin 2) (Fin 2) ℂ) :
    two_site_operator op1 op2 i j n
      = castM (two_site_dim hij hj)
          (npKron (1 : Matrix (Fin (2 ^ (n - j - 1))) (Fin (2 ^ (n - j - 1))) ℂ)
            (npKron op2
              (npKron (1 : Matrix (Fin (2 ^ (j - i - 1))) (Fin (2 ^ (j - i - 1))) ℂ)
                (npKron op1 (1 : Matrix (Fin (2 ^ i)) (Fin (2 ^ i)) ℂ))))) := by
  rw [two_site_operator, if_neg (by omega), castTo_eq (two_site_dim hij hj)]

lemma single_mul_single_core {i j n : ℕ} (hij : i < j) (hj : j < n)
    (op1 op2 : Matrix (Fin 2) (Fin 2) ℂ) :
    single_site_operator op1 i n * single_site_operator op2 j n
      = two_site_operator op1 op2 i j n := by
  rw [single_low_factor hij hj, single_high_factor hij hj, castM_mul,
    npKron_mul, npKron_mul, npKron_mul, npKron_mul, two_site_eq_core hij hj]
  simp only [Matrix.one_mul, Matrix.mul_one]

lemma single_mul_single_core' {i j n : ℕ} (hij : i < j) (hj : j < n)
    (op1 op2 : Matrix (Fin 2) (Fin 2) ℂ) :
    single_site_operator op2 j n * single_site_operator op1 i n
      = two_site_operator op1 op2 i j n := by
  rw [single_low_factor hij hj op1, single_high_factor hij hj op2, castM_mul,
    npKron_mul, npKron_mul, npKron_mul, npKron_mul, two_site_eq_core hij hj]
  simp only [Matrix.one_mul, Matrix.mul_one]

/-- **C10.** For all 2×2 matrices `op1`, `op2` and qubit indices
`0 ≤ i, j < n` with `i ≠ j`, `two_site_operator (op1, op2, i, j, n)` equals
the matrix product
`single_site_operator (op1, i, n) * single_site_operator (op2, j, n)`:
embedding the two one-site operators separately and multiplying gives the
same `2^n × 2^n` matrix as the combined two-site embedding. -/
theorem two_site_operator_eq_single_mul (op1 op2 : Matrix (Fin 2) (Fin 2) ℂ)
    {i j n : ℕ} (hij : i ≠ j) (hi : i < n) (hj : j < n) :
    two_site_operator op1 op2 i j n
      = single_site_operator op1 i n * single_site_operator op2 j n := by
  rcases lt_or_gt_of_ne hij with h | h
  · exact (single_mul_single_core h hj op1 op2).symm
  · rw [two_site_operator, if_pos h]
    exact (single_mul_single_core' h hi op2 op1).symm

/-- Witness for C10 at a concrete input. -/
theorem two_site_operator_eq_single_mul_witness :
    two_site_operator Xmat Zmat 0 2 3
      = single_site_operator Xmat 0 3 * single_site_operator Zmat 2 3 :=
  two_site_operator_eq_single_mul Xmat Zmat (by norm_num) (by norm_num) (by norm_num)

/-! ### The state-evolution engine -/

/-- The squared Euclidean norm of a state vector. -/
def normSq2 {m : ℕ} (ψ : Fin m → ℂ) : ℝ := ∑ p, Complex.normSq (ψ p)

/-- The Euclidean norm of a state vector. -/
def euclNorm {m : ℕ} (ψ : Fin m → ℂ) : ℝ := Real.sqrt (normSq2 ψ)

lemma exp_skew_unitary {N : ℕ} (A : Matrix (Fin N) (Fin N) ℂ) (h : Aᴴ = -A) :
    (NormedSpace.exp ℂ A)ᴴ * NormedSpace.exp ℂ A = 1 := by
  rw [← Matrix.exp_conjTranspose, h,
    ← Matrix.exp_add_of_commute _ _ _ (Commute.neg_left (Commute.refl A)),
    neg_add_cancel, NormedSpace.exp_zero]

lemma dotProduct_star_self {m : ℕ} (ψ : Fin m → ℂ) :
    Matrix.dotProduct (star ψ) ψ = ((normSq2 ψ : ℝ) : ℂ) := by
  rw [Matrix.dotProduct, normSq2]
  push_cast
  refine Finset.sum_congr rfl fun p _ => ?_
  rw [Pi.star_apply, Complex.star_def, mul_comm, Complex.mul_conj]

lemma unitary_dot_preserved {m : ℕ} (U : Matrix (Fin m) (Fin m) ℂ)
    (hU : Uᴴ * U = 1) (ψ : Fin m → ℂ) :
    Matrix.dotProduct (star (U.mulVec ψ)) (U.mulVec ψ)
      = Matrix.dotProduct (star ψ) ψ := by
  rw [Matrix.star_mulVec, Matrix.dotProduct_mulVec, Matrix.vecMul_vecMul, hU,
    Matrix.vecMul_one]

lemma normSq2_unitary_mulVec {m : ℕ} (U : Matrix (Fin m) (Fin m) ℂ)
    (hU : Uᴴ * U = 1) (ψ : Fin m → ℂ) :
    normSq2 (U.mulVec ψ) = normSq2 ψ := by
  have h1 := dotProduct_star_self (U.mulVec ψ)
  rw [unitary_dot_preserved U hU ψ, dotProduct_star_self ψ] at h1
  exact_mod_cast h1.symm

lemma layer_scalar_skew {N : ℕ} (M : Matrix (Fin N) (Fin N) ℂ) (hM : Mᴴ = M) (t : ℝ) :
    ((-(Complex.I * (t : ℝ))) • M)ᴴ = -((-(Complex.I * (t : ℝ))) • M) := by
  rw [Matrix.conjTranspose_smul, hM]
  simp [Complex.ext_iff]

lemma normSq2_layer {N : ℕ} (M : Matrix (Fin N) (Fin N) ℂ) (hM : Mᴴ = M) (t : ℝ)
    (ψ : Fin N → ℂ) :
    normSq2 ((NormedSpace.exp ℂ ((-(Complex.I * (t : ℝ))) • M)).mulVec ψ) = normSq2 ψ :=
  normSq2_unitary_mulVec _ (exp_skew_unitary _ (layer_scalar_skew M hM t)) ψ

lemma normSq2_uniform_state (n : ℕ) : normSq2 (uniform_state n) = 1 := by
  rw [normSq2]
  have hval : ∀ p : Fin (2 ^ n), Complex.normSq (uniform_state n p) = 1 / 2 ^ n := by
    intro p
    rw [show uniform_state n p = (1 : ℂ) / (Real.sqrt (2 ^ n) : ℝ) from rfl,
      Complex.normSq_div, Complex.normSq_one, Complex.normSq_ofReal,
      Real.mul_self_sqrt (by positivity)]
  rw [Finset.sum_congr rfl fun p _ => hval p, Finset.sum_const, Finset.card_univ,
    Fintype.card_fin, nsmul_eq_mul]
  have h2 : (2 : ℝ) ^ n ≠ 0 := by positivity
  push_cast
  field_simp

/-- **C2.** For every Hermitian `B` and `C` and all real parameter lists
`βlist`, `γlist` (in particular for every depth `p ≥ 0`), the state returned
by `construct_wavefunction` has Euclidean norm 1: the unit-norm invariant is
preserved by every layer of the evolution, because each factor
`expm (-i·t·M)` with `M` Hermitian is unitary. -/
theorem construct_wavefunction_norm {n : ℕ}
    (B C : Matrix (Fin (2 ^ n)) (Fin (2 ^ n)) ℂ) (hB : Bᴴ = B) (hC : Cᴴ = C)
    (βlist γlist : List ℝ) :
    euclNorm (construct_wavefunction B C βlist γlist) = 1 := by
  suffices h : normSq2 (construct_wavefunction B C βlist γlist) = 1 by
    rw [euclNorm, h, Real.sqrt_one]
  rw [construct_wavefunction]
  have main : ∀ (l : List (ℝ × ℝ)) (ψ : Fin (2 ^ n) → ℂ), normSq2 ψ = 1 →
      normSq2 (l.foldl
        (fun ψ bg =>
          (NormedSpace.exp ℂ ((-(Complex.I * (bg.1 : ℝ))) • B)).mulVec
            ((NormedSpace.exp ℂ ((-(Complex.I * (bg.2 : ℝ))) • C)).mulVec ψ)) ψ) = 1 := by
    intro l
    induction l with
    | nil => exact fun ψ h => h
    | cons bg t ih =>
      intro ψ h
      rw [List.foldl_cons]
      exact ih _ (by rw [normSq2_layer B hB, normSq2_layer C hC, h])
  exact main _ _ (normSq2_uniform_state n)

/-- Witness for C2 at a concrete input (`n = 0`, zero operators, `p = 0`). -/
theorem construct_wavefunction_norm_witness :
    (0 : Matrix (Fin (2 ^ 0)) (Fin (2 ^ 0)) ℂ)ᴴ = 0 ∧
    euclNorm (construct_wavefunction (n := 0) 0 0 [] []) = 1 :=
  ⟨Matrix.conjTranspose_zero,
   construct_wavefunction_norm 0 0 Matrix.conjTranspose_zero
     Matrix.conjTranspose_zero [] []⟩

/-- The Ansatz product of the spec,
`e^{-iβ_p B} e^{-iγ_p C} ⋯ e^{-iβ_1 B} e^{-iγ_1 C}` (first layer rightmost),
written from the spec's formula as the description `construct_wavefunction`
is compared against. -/
def ansatzProduct {n : ℕ} (B C : Matrix (Fin (2 ^ n)) (Fin (2 ^ n)) ℂ) :
    List ℝ → List ℝ → Matrix (Fin (2 ^ n)) (Fin (2 ^ n)) ℂ
  | β :: βs, γ :: γs =>
      ansatzProduct B C βs γs *
        (NormedSpace.exp ℂ ((-(Complex.I * (β : ℝ))) • B) *
          NormedSpace.exp ℂ ((-(Complex.I * (γ : ℝ))) • C))
  | _, _ => 1

/-- **C5.** For equal-length real lists, `construct_wavefunction` starts from
`uniform_state n` (`n` recovered from `B`'s dimension) and applies, for each
layer `i = 0 .. p-1` in order, `exp (-i·γ[i]·C)` first and then
`exp (-i·β[i]·B)` (cost layer before mixer layer): the result is the Ansatz
product applied to the uniform state, and for `p = 0` it returns the uniform
state unchanged. -/
theorem construct_wavefunction_spec {n : ℕ}
    (B C : Matrix (Fin (2 ^ n)) (Fin (2 ^ n)) ℂ) (βlist γlist : List ℝ)
    (h : βlist.length = γlist.length) :
    construct_wavefunction B C βlist γlist
      = (ansatzProduct B C βlist γlist).mulVec (uniform_state n) ∧
    construct_wavefunction B C [] [] = uniform_state n := by
  refine ⟨?_, rfl⟩
  rw [construct_wavefunction]
  have main : ∀ (βs γs : List ℝ), βs.length = γs.length → ∀ ψ : Fin (2 ^ n) → ℂ,
      (βs.zip γs).foldl
        (fun ψ bg =>
          (NormedSpace.exp ℂ ((-(Complex.I * (bg.1 : ℝ))) • B)).mulVec
            ((NormedSpace.exp ℂ ((-(Complex.I * (bg.2 : ℝ))) • C)).mulVec ψ)) ψ
        = (ansatzProduct B C βs γs).mulVec ψ := by
    intro βs
    induction βs with
    | nil =>
      intro γs hlen ψ
      cases γs with
      | nil => rw [List.zip_nil_right, List.foldl_nil,
          show ansatzProduct B C [] [] = 1 from rfl, Matrix.one_mulVec]
      | cons γ γt => exact absurd hlen (by simp)
    | cons β βt ih =>
      intro γs hlen ψ
      cases γs with
      | nil => exact absurd hlen (by simp)
      | cons γ γt =>
        rw [List.zip_cons_cons, List.foldl_cons, ih γt (by simpa using hlen),
          show ansatzProduct B C (β :: βt) (γ :: γt)
            = ansatzProduct B C βt γt *
                (NormedSpace.exp ℂ ((-(Complex.I * (β : ℝ))) • B) *
                  NormedSpace.exp ℂ ((-(Complex.I * (γ : ℝ))) • C)) from rfl,
          Matrix.mulVec_mulVec, Matrix.mulVec_mulVec, Matrix.mul_assoc]
  exact main βlist γlist h (uniform_state n)

/-- Witness for C5 at a concrete input (`n = 0`, zero operators, one layer). -/
theorem construct_wavefunction_spec_witness :
    [(0 : ℝ)].length = [(0 : ℝ)].length ∧
    construct_wavefunction (n := 0) 0 0 [(0 : ℝ)] [(0 : ℝ)]
      = (ansatzProduct (n := 0) 0 0 [(0 : ℝ)] [(0 : ℝ)]).mulVec (uniform_state 0) :=
  ⟨rfl, (construct_wavefunction_spec 0 0 [(0 : ℝ)] [(0 : ℝ)] rfl).1⟩

/-- **C3 (exact-arithmetic half).** For every Hermitian `C`, the complex
scalar `target_expval` returns — the source returns the full `np.vdot`
result and never takes a real part, despite its own comment asking for
"only the real part, such that the optimization works" — has zero imaginary
part in exact arithmetic, so the value the claim describes is
`(target_expval ...).re` and the mathematical identity behind the claim
holds.  With machine floats the residual imaginary part is *not* discarded:
the recorded notebook output shows scipy's
`ComplexWarning: Casting complex values to real discards the imaginary part`
when the optimizer consumes this value. -/
theorem target_expval_im_zero {n : ℕ}
    (B C : Matrix (Fin (2 ^ n)) (Fin (2 ^ n)) ℂ) (hC : Cᴴ = C)
    (βlist γlist : List ℝ) :
    (target_expval B C βlist γlist).im = 0 := by
  rw [target_expval]
  set ψ := construct_wavefunction B C βlist γlist with hψ
  have key : (starRingEnd ℂ) (Matrix.dotProduct (star ψ) (C.mulVec ψ))
      = Matrix.dotProduct (star ψ) (C.mulVec ψ) := by
    rw [show (starRingEnd ℂ) (Matrix.dotProduct (star ψ) (C.mulVec ψ))
        = star (Matrix.dotProduct (star ψ) (C.mulVec ψ)) from rfl,
      ← Matrix.star_dotProduct_star, star_star, Matrix.star_mulVec, hC,
      ← Matrix.dotProduct_mulVec]
  exact Complex.conj_eq_iff_im.mp key

/-- Witness for C3's theorem at a concrete input. -/
theorem target_expval_im_zero_witness :
    (0 : Matrix (Fin (2 ^ 0)) (Fin (2 ^ 0)) ℂ)ᴴ = 0 ∧
    (target_expval (n := 0) 0 0 [] []).im = 0 :=
  ⟨Matrix.conjTranspose_zero,
   target_expval_im_zero 0 0 Matrix.conjTranspose_zero [] []⟩

/-! ### Sanity checks against the notebook's example cells -/

/-- The notebook's `single_site_operator(Xmat, 1, 3)` example: `X₁` flips bit
`1`, so the entry at row `0`, column `2` is `1`. -/
example : single_site_operator Xmat 1 3 ⟨0, by norm_num⟩ ⟨2, by norm_num⟩ = 1 := by
  rw [single_site_operator, castTo_eq (single_site_dim (show 1 < 3 by norm_num)),
    castM_apply, npKron_apply, npKron_apply]
  norm_num [Matrix.one_apply, Xmat, Fin.divNat, Fin.modNat, Fin.ext_iff]

/-- ... and its diagonal vanishes: `X₁` has no diagonal part. -/
example : single_site_operator Xmat 1 3 ⟨2, by norm_num⟩ ⟨2, by norm_num⟩ = 0 := by
  rw [single_site_operator, castTo_eq (single_site_dim (show 1 < 3 by norm_num)),
    castM_apply, npKron_apply, npKron_apply]
  norm_num [Matrix.one_apply, Xmat, Fin.divNat, Fin.modNat, Fin.ext_iff]

end
